import Mathlib

/-!
Verification of the prompt-syntax converter core (`parseNovelAI`, `parsePixAI`,
`segmentsToPixAI`, `segmentsToNovelAI` and the two conversion directions of the
`Converter` component).

Modelling conventions:
* JavaScript strings are modelled as `List Char` (wrapped into `String` at the
  public boundary, mirroring the TypeScript signatures).
* JavaScript numbers are modelled as exact rationals.  To keep every
  definition kernel-computable we use a small record `Q` of
  numerator/denominator pairs, kept in lowest terms by construction, together
  with a bridge `toRat : Q → ℚ` into Mathlib's rationals for algebraic
  reasoning.  `Math.round` is `fun x => ⌊x + 1/2⌋` as in JS.
* `generateId` reads the shared `Math.random` PRNG; the PRNG is modelled as a
  state (a natural number) threaded through the `…Ids` variants of the
  scanners.  The plain scanners drop the `id` field, which no other part of
  the core reads.
-/

set_option maxRecDepth 4000

/-! ### Exact rational arithmetic, kernel-computable -/

/-- Structural Euclidean gcd with explicit fuel (so the kernel can reduce it). -/
def ngcdF : ℕ → ℕ → ℕ → ℕ
  | 0, _, b => b
  | _ + 1, 0, b => b
  | f + 1, a + 1, b => ngcdF f (b % (a + 1)) (a + 1)

def ngcd (a b : ℕ) : ℕ := ngcdF (a + 1) a b

theorem ngcdF_eq_gcd : ∀ f a b, a < f → ngcdF f a b = Nat.gcd a b := by
  intro f
  induction f with
  | zero => intro a b h; omega
  | succ f ih =>
    intro a b h
    match a with
    | 0 => simp [ngcdF]
    | a + 1 =>
      have hlt : b % (a + 1) < f := by
        have := Nat.mod_lt b (y := a + 1) (by omega)
        omega
      rw [ngcdF, ih _ _ hlt]
      exact (Nat.gcd_rec _ _).symm

theorem ngcd_eq_gcd (a b : ℕ) : ngcd a b = Nat.gcd a b :=
  ngcdF_eq_gcd _ _ _ (Nat.lt_succ_self a)

/-- Exact rational number: numerator/denominator pair.  All pipeline values
are produced through `mkQ` and are therefore in lowest terms with a positive
denominator, so `DecidableEq` coincides with value equality on them. -/
structure Q where
  num : ℤ
  den : ℕ
deriving DecidableEq

/-- Build a `Q` in lowest terms from a fraction with integer parts. -/
def mkQ (n d : ℤ) : Q :=
  if d = 0 then ⟨0, 0⟩
  else
    let n' := if d < 0 then -n else n
    let d' := (if d < 0 then -d else d).toNat
    let g := ngcd n'.natAbs d'
    ⟨n' / (g : ℤ), d' / g⟩

def Q.one : Q := ⟨1, 1⟩

def qadd (a b : Q) : Q := mkQ (a.num * b.den + b.num * a.den) (a.den * b.den)

def qmul (a b : Q) : Q := mkQ (a.num * b.num) (a.den * b.den)

def qinv (a : Q) : Q := mkQ a.den a.num

def qdiv (a b : Q) : Q := qmul a (qinv b)

def qabs (a : Q) : Q := ⟨|a.num|, a.den⟩

def qpow (a : Q) : ℕ → Q
  | 0 => Q.one
  | n + 1 => qmul (qpow a n) a

def qzpow (a : Q) (z : ℤ) : Q :=
  if 0 ≤ z then qpow a z.toNat else qpow (qinv a) (-z).toNat

/-- `a ≤ b` as rational values (valid for positive denominators). -/
def qle (a b : Q) : Prop := a.num * (b.den : ℤ) ≤ b.num * (a.den : ℤ)

def qlt (a b : Q) : Prop := a.num * (b.den : ℤ) < b.num * (a.den : ℤ)

instance (a b : Q) : Decidable (qle a b) := by unfold qle; infer_instance

instance (a b : Q) : Decidable (qlt a b) := by unfold qlt; infer_instance

/-- Floor of a rational value (denominator positive). -/
def qfloor (a : Q) : ℤ := Int.fdiv a.num a.den

/-- Bridge into Mathlib's rationals. -/
def toRat (a : Q) : ℚ := (a.num : ℚ) / (a.den : ℚ)

/-- Lowest terms with positive denominator. -/
def Q.Normal (a : Q) : Prop := 0 < a.den ∧ Nat.Coprime a.num.natAbs a.den

theorem normAux (n : ℤ) (d g : ℕ) (hd : 0 < d) (hgpos : 0 < g)
    (hgn : (g : ℤ) ∣ n) (hgd : g ∣ d)
    (hcop : Nat.Coprime (n.natAbs / g) (d / g)) :
    Q.Normal ⟨n / (g : ℤ), d / g⟩ ∧
      toRat ⟨n / (g : ℤ), d / g⟩ = (n : ℚ) / (d : ℚ) := by
  have hgne : (g : ℤ) ≠ 0 := by exact_mod_cast hgpos.ne'
  have hgq : ((g : ℕ) : ℚ) ≠ 0 := by exact_mod_cast hgpos.ne'
  obtain ⟨c, hc⟩ := hgn
  obtain ⟨e, he⟩ := hgd
  have hn2 : n / (g : ℤ) = c := by
    rw [hc]; exact Int.mul_ediv_cancel_left _ hgne
  have hd2 : d / g = e := by
    rw [he]; exact Nat.mul_div_cancel_left _ hgpos
  have hnabs : (n / (g : ℤ)).natAbs = n.natAbs / g := by
    rw [hn2]
    have h1 : n.natAbs = g * c.natAbs := by
      rw [hc, Int.natAbs_mul, Int.natAbs_ofNat]
    rw [h1, Nat.mul_div_cancel_left _ hgpos]
  refine ⟨⟨?_, ?_⟩, ?_⟩
  · simp only [hd2]
    by_contra h
    have he0 : e = 0 := by omega
    rw [he0, Nat.mul_zero] at he
    omega
  · show Nat.Coprime (n / (g : ℤ)).natAbs (d / g)
    rw [hnabs]
    exact hcop
  · unfold toRat
    simp only [hn2, hd2]
    rw [hc, he]
    push_cast
    rw [mul_div_mul_left _ _ hgq]

theorem normCore (n : ℤ) (d : ℕ) (hd : 0 < d) :
    Q.Normal ⟨n / (Nat.gcd n.natAbs d : ℤ), d / Nat.gcd n.natAbs d⟩ ∧
      toRat ⟨n / (Nat.gcd n.natAbs d : ℤ), d / Nat.gcd n.natAbs d⟩ = (n : ℚ) / (d : ℚ) := by
  have hgpos : 0 < Nat.gcd n.natAbs d := Nat.gcd_pos_of_pos_right _ hd
  refine normAux n d _ hd hgpos ?_ (Nat.gcd_dvd_right _ _) (Nat.coprime_div_gcd_div_gcd hgpos)
  refine Int.natAbs_dvd_natAbs.mp ?_
  simpa using Nat.gcd_dvd_left n.natAbs d

theorem mkQ_spec (n d : ℤ) (hd : d ≠ 0) :
    (mkQ n d).Normal ∧ toRat (mkQ n d) = (n : ℚ) / (d : ℚ) := by
  unfold mkQ
  rw [if_neg hd]
  rcases lt_trichotomy d 0 with h | h | h
  · simp only [if_pos h]
    have hpos : 0 < (-d).toNat := by omega
    have hcast : (((-d).toNat : ℕ) : ℚ) = ((-d : ℤ) : ℚ) := by
      have : ((-d).toNat : ℤ) = -d := Int.toNat_of_nonneg (by omega)
      exact_mod_cast congrArg (fun z : ℤ => (z : ℚ)) this
    obtain ⟨hnorm, hval⟩ := normCore (-n) (-d).toNat hpos
    rw [ngcd_eq_gcd]
    refine ⟨hnorm, ?_⟩
    rw [hval, hcast]
    push_cast
    rw [div_neg, neg_div, neg_neg]
  · exact absurd h hd
  · simp only [if_neg (not_lt.mpr h.le)]
    have hpos : 0 < d.toNat := by omega
    have hcast : ((d.toNat : ℕ) : ℚ) = (d : ℚ) := by
      have : (d.toNat : ℤ) = d := Int.toNat_of_nonneg h.le
      exact_mod_cast congrArg (fun z : ℤ => (z : ℚ)) this
    obtain ⟨hnorm, hval⟩ := normCore n d.toNat hpos
    rw [ngcd_eq_gcd]
    exact ⟨hnorm, by rw [hval, hcast]⟩

theorem mkQ_normal (n d : ℤ) (hd : d ≠ 0) : (mkQ n d).Normal := (mkQ_spec n d hd).1

theorem toRat_mkQ (n d : ℤ) (hd : d ≠ 0) : toRat (mkQ n d) = (n : ℚ) / (d : ℚ) :=
  (mkQ_spec n d hd).2

theorem toRat_nat (n : ℕ) : toRat ⟨(n : ℤ), 1⟩ = (n : ℚ) := by
  unfold toRat; push_cast; simp

theorem toRat_den_pos_ne (a : Q) (ha : 0 < a.den) : ((a.den : ℚ)) ≠ 0 := by
  exact_mod_cast ha.ne'

theorem toRat_qadd (a b : Q) (ha : 0 < a.den) (hb : 0 < b.den) :
    toRat (qadd a b) = toRat a + toRat b := by
  unfold qadd
  have hmul : ((a.den : ℤ) * (b.den : ℤ)) ≠ 0 := by
    have := Nat.mul_pos ha hb
    have h2 : ((a.den * b.den : ℕ) : ℤ) ≠ 0 := by exact_mod_cast this.ne'
    push_cast at h2
    exact h2
  rw [toRat_mkQ _ _ hmul]
  unfold toRat
  have ha' := toRat_den_pos_ne a ha
  have hb' := toRat_den_pos_ne b hb
  push_cast
  field_simp

theorem toRat_qmul (a b : Q) (ha : 0 < a.den) (hb : 0 < b.den) :
    toRat (qmul a b) = toRat a * toRat b := by
  unfold qmul
  have hmul : ((a.den : ℤ) * (b.den : ℤ)) ≠ 0 := by
    have := Nat.mul_pos ha hb
    have h2 : ((a.den * b.den : ℕ) : ℤ) ≠ 0 := by exact_mod_cast this.ne'
    push_cast at h2
    exact h2
  rw [toRat_mkQ _ _ hmul]
  unfold toRat
  have ha' := toRat_den_pos_ne a ha
  have hb' := toRat_den_pos_ne b hb
  push_cast
  field_simp

theorem toRat_qinv (a : Q) (ha : a.num ≠ 0) : toRat (qinv a) = (toRat a)⁻¹ := by
  unfold qinv
  rw [toRat_mkQ _ _ ha]
  unfold toRat
  rw [inv_div]
  norm_cast

/-- On normalized values, `toRat` determines the representation. -/
theorem toRat_inj (a b : Q) (ha : a.Normal) (hb : b.Normal) (h : toRat a = toRat b) :
    a = b := by
  obtain ⟨ha1, ha2⟩ := ha
  obtain ⟨hb1, hb2⟩ := hb
  have haden : (a.den : ℤ) ≠ 0 := by exact_mod_cast ha1.ne'
  have hbden : (b.den : ℤ) ≠ 0 := by exact_mod_cast hb1.ne'
  have key : (Rat.mk' a.num a.den ha1.ne' ha2) = (Rat.mk' b.num b.den hb1.ne' hb2) := by
    rw [Rat.mk'_eq_divInt, Rat.mk'_eq_divInt]
    rw [Rat.divInt_eq_div, Rat.divInt_eq_div]
    exact h
  cases a; cases b
  simpa using key

theorem Q.one_normal : Q.one.Normal := by
  constructor
  · exact Nat.one_pos
  · simp [Q.one, Nat.Coprime]

theorem toRat_one : toRat Q.one = 1 := by
  unfold toRat Q.one
  norm_num

theorem qadd_normal (a b : Q) (ha : 0 < a.den) (hb : 0 < b.den) : (qadd a b).Normal := by
  unfold qadd
  apply mkQ_normal
  have h2 : ((a.den * b.den : ℕ) : ℤ) ≠ 0 := by exact_mod_cast (Nat.mul_pos ha hb).ne'
  push_cast at h2
  exact h2

theorem qmul_normal (a b : Q) (ha : 0 < a.den) (hb : 0 < b.den) : (qmul a b).Normal := by
  unfold qmul
  apply mkQ_normal
  have h2 : ((a.den * b.den : ℕ) : ℤ) ≠ 0 := by exact_mod_cast (Nat.mul_pos ha hb).ne'
  push_cast at h2
  exact h2

theorem qpow_normal (a : Q) (ha : 0 < a.den) (n : ℕ) : (qpow a n).Normal := by
  induction n with
  | zero => exact Q.one_normal
  | succ n ih => exact qmul_normal _ _ ih.1 ha

theorem toRat_qpow (a : Q) (ha : 0 < a.den) (n : ℕ) : toRat (qpow a n) = toRat a ^ n := by
  induction n with
  | zero => simpa [qpow] using toRat_one
  | succ n ih =>
    rw [qpow, toRat_qmul _ _ (qpow_normal a ha n).1 ha, ih, pow_succ]

theorem qlt_iff (a b : Q) (ha : 0 < a.den) (hb : 0 < b.den) :
    qlt a b ↔ toRat a < toRat b := by
  unfold qlt toRat
  have ha' : (0 : ℚ) < (a.den : ℚ) := by exact_mod_cast ha
  have hb' : (0 : ℚ) < (b.den : ℚ) := by exact_mod_cast hb
  rw [div_lt_div_iff₀ ha' hb']
  constructor
  · intro h
    exact_mod_cast h
  · intro h
    exact_mod_cast h

theorem qle_iff (a b : Q) (ha : 0 < a.den) (hb : 0 < b.den) :
    qle a b ↔ toRat a ≤ toRat b := by
  unfold qle toRat
  have ha' : (0 : ℚ) < (a.den : ℚ) := by exact_mod_cast ha
  have hb' : (0 : ℚ) < (b.den : ℚ) := by exact_mod_cast hb
  rw [div_le_div_iff₀ ha' hb']
  constructor
  · intro h
    exact_mod_cast h
  · intro h
    exact_mod_cast h

/-- On a normalized value, `toRat` has literally the same numerator and
denominator. -/
theorem toRat_num_den (a : Q) (ha : a.Normal) :
    (toRat a).num = a.num ∧ (toRat a).den = a.den := by
  obtain ⟨h1, h2⟩ := ha
  have key : toRat a = Rat.mk' a.num a.den h1.ne' h2 := by
    rw [Rat.mk'_eq_divInt, Rat.divInt_eq_div]
    rfl
  rw [key]
  exact ⟨rfl, rfl⟩

/-! ### Characters, trimming, digit strings -/

/-- Whitespace for the purposes of `String.prototype.trim` (common subset). -/
def wsChar (c : Char) : Bool :=
  c == ' ' || c == '\t' || c == '\n' || c == '\r' || c == '\x0b' || c == '\x0c'

def trimRightChars : List Char → List Char
  | [] => []
  | c :: r =>
    match trimRightChars r with
    | [] => if wsChar c then [] else [c]
    | r' => c :: r'

/-- `String.prototype.trim` on character lists. -/
def trimChars (l : List Char) : List Char := trimRightChars (l.dropWhile wsChar)

def digitVal (c : Char) : ℕ := c.toNat - 48

def natOfDigits (l : List Char) : ℕ := l.foldl (fun a c => 10 * a + digitVal c) 0

/-- Decimal digits of a natural number (with fuel so the kernel can reduce). -/
def natDigitsF : ℕ → ℕ → List Char
  | 0, _ => []
  | f + 1, n =>
    if n < 10 then [Char.ofNat (48 + n)]
    else natDigitsF f (n / 10) ++ [Char.ofNat (48 + n % 10)]

def natDigits (n : ℕ) : List Char := natDigitsF (n + 1) n

/-- Model of JavaScript `parseFloat` restricted to the token shapes the
scanners feed it (digit strings of the form `D`, `D.F` or `.F`); a string
with no leading numeric part gives `none` (JS `NaN`). -/
def parseFloatQ (l : List Char) : Option Q :=
  let D := l.takeWhile Char.isDigit
  match l.dropWhile Char.isDigit with
  | '.' :: r =>
    let F := r.takeWhile Char.isDigit
    if D = [] ∧ F = [] then none
    else some (qadd ⟨natOfDigits D, 1⟩ (qdiv ⟨natOfDigits F, 1⟩ (qpow ⟨10, 1⟩ F.length)))
  | _ => if D = [] then none else some ⟨natOfDigits D, 1⟩

/-! ### Segment model (`ParsedSegment` without the random `id`) -/

inductive SegKind
  | text
  | weight
deriving DecidableEq

structure Segment where
  kind : SegKind
  raw : List Char
  content : List Char
  weight : Option Q
deriving DecidableEq

/-- Escape parentheses for PixAI/SD format. -/
def escapePixAI : List Char → List Char
  | [] => []
  | c :: r => if c = '(' ∨ c = ')' then '\\' :: c :: escapePixAI r else c :: escapePixAI r

/-- Single left-to-right pass of the global replacement of `\\(` / `\\)` by
the bare parenthesis; `c` is the character under the cursor, the list is the
rest.  On a failed match the search advances one character, like
`String.prototype.replace`. -/
def unescGo : Char → List Char → List Char
  | c, [] => [c]
  | c, c2 :: r2 =>
    if c = '\\' ∧ (c2 = '(' ∨ c2 = ')') then
      c2 ::
        match r2 with
        | [] => []
        | c3 :: r3 => unescGo c3 r3
    else c :: unescGo c2 r2

/-- Unescape parentheses from PixAI/SD format. -/
def unescapePixAI : List Char → List Char
  | [] => []
  | c :: r => unescGo c r

/-- Round to 2 decimal places (`Math.round(num * 100) / 100`). -/
def roundWeight (q : Q) : Q := mkQ (qfloor (qadd (qmul q ⟨100, 1⟩) ⟨1, 2⟩)) 100

/-! ### Format A scanner (`parseNovelAI`) -/

structure StateA where
  base : Q
  curly : ℤ
  square : ℤ
  buffer : List Char
deriving DecidableEq

def flushA (st : StateA) : List Segment :=
  let t := trimChars st.buffer
  if t = [] then []
  else
    let w := roundWeight (qmul (qmul st.base (qzpow ⟨21, 20⟩ st.curly)) (qzpow ⟨19, 20⟩ st.square))
    [⟨if w = Q.one then SegKind.text else SegKind.weight, t, t, some w⟩]

/-- `weightControlRegex`: an optional decimal number immediately followed by
`::`.  Returns the numeric capture and the suffix after the token. -/
def matchWC (cs : List Char) : Option (List Char × List Char) :=
  let D := cs.takeWhile Char.isDigit
  match cs.dropWhile Char.isDigit with
  | '.' :: r2 =>
    match r2.takeWhile Char.isDigit with
    | [] => none
    | F =>
      match r2.dropWhile Char.isDigit with
      | ':' :: ':' :: after => some (D ++ '.' :: F, after)
      | _ => none
  | ':' :: ':' :: after => some (D, after)
  | _ => none

def scanA : ℕ → List Char → StateA → StateA × List Segment
  | 0, _, st => ({ st with buffer := [] }, flushA st)
  | _ + 1, [], st => ({ st with buffer := [] }, flushA st)
  | fuel + 1, c :: rest, st =>
    match matchWC (c :: rest) with
    | some (numStr, after) =>
      let newBase : Q :=
        if numStr = [] then Q.one
        else
          match parseFloatQ numStr with
          | some w => w
          | none => st.base
      let r := scanA fuel after ⟨newBase, 0, 0, []⟩
      (r.1, flushA st ++ r.2)
    | none =>
      if c = '{' then
        let r := scanA fuel rest ⟨st.base, st.curly + 1, st.square, []⟩
        (r.1, flushA st ++ r.2)
      else if c = '}' then
        let r := scanA fuel rest ⟨st.base, st.curly - 1, st.square, []⟩
        (r.1, flushA st ++ r.2)
      else if c = '[' then
        let r := scanA fuel rest ⟨st.base, st.curly, st.square + 1, []⟩
        (r.1, flushA st ++ r.2)
      else if c = ']' then
        let r := scanA fuel rest ⟨st.base, st.curly, st.square - 1, []⟩
        (r.1, flushA st ++ r.2)
      else if c = ',' then
        let r := scanA fuel rest ⟨st.base, st.curly, st.square, []⟩
        (r.1, flushA st ++ r.2)
      else scanA fuel rest ⟨st.base, st.curly, st.square, st.buffer ++ [c]⟩

def initA : StateA := ⟨Q.one, 0, 0, []⟩

def parseNovelAI (t : String) : List Segment := (scanA (t.data.length + 1) t.data initA).2

/-- Final scanner state of a full Format A scan (for depth-excursion claims). -/
def scanAFinal (t : String) : StateA := (scanA (t.data.length + 1) t.data initA).1

/-! ### Format B scanner (`parsePixAI`) -/

structure StateB where
  paren : ℕ
  square : ℕ
  buffer : List Char

def flushB (st : StateB) : List Segment :=
  let t := trimChars st.buffer
  if t = [] then []
  else
    let w := roundWeight (qmul (qmul Q.one (qpow ⟨11, 10⟩ st.paren)) (qpow ⟨9, 10⟩ st.square))
    [⟨if w = Q.one then SegKind.text else SegKind.weight, t, unescapePixAI t, some w⟩]

/-- Characters the regex `.` does not match (line terminators). -/
def regexDotFails (c : Char) : Bool :=
  c == '\n' || c == '\r' || c == '\u2028' || c == '\u2029'

/-- Content munch of `explicitWeightRegex`: the group `(?:[^:()\\]|\\.)+`,
greedy.  A backslash is consumed only as part of an `\\.` escape pair (the
character class excludes it, and `.` does not match line terminators), so a
dangling backslash stops the munch. -/
def munchC : List Char → List Char × List Char
  | [] => ([], [])
  | c :: rest =>
    if c = '\\' then
      match rest with
      | c2 :: rest2 =>
        if regexDotFails c2 then ([], c :: rest)
        else
          let p := munchC rest2
          (c :: c2 :: p.1, p.2)
      | [] => ([], [c])
    else if c = ':' ∨ c = '(' ∨ c = ')' then ([], c :: rest)
    else
      let p := munchC rest
      (c :: p.1, p.2)

/-- `explicitWeightRegex`: `^\(((?:[^:()\\]|\\.)+):(\d+(?:\.\d+)?)\)`.
Returns (content capture, numeric capture, suffix after the token). -/
def matchEW (cs : List Char) : Option (List Char × List Char × List Char) :=
  match cs with
  | '(' :: cs1 =>
    match munchC cs1 with
    | (content, r1) =>
      if content = [] then none
      else
        match r1 with
        | ':' :: r2 =>
          if r2.takeWhile Char.isDigit = [] then none
          else
            match r2.dropWhile Char.isDigit with
            | ')' :: after => some (content, r2.takeWhile Char.isDigit, after)
            | '.' :: r3 =>
              if r3.takeWhile Char.isDigit = [] then none
              else
                match r3.dropWhile Char.isDigit with
                | ')' :: after =>
                  some (content,
                    r2.takeWhile Char.isDigit ++ '.' :: r3.takeWhile Char.isDigit, after)
                | _ => none
            | _ => none
        | _ => none
  | _ => none

def scanB : ℕ → List Char → StateB → List Segment
  | 0, _, st => flushB st
  | _ + 1, [], st => flushB st
  | fuel + 1, c :: rest, st =>
    if c = '\\' then
      match rest with
      | c2 :: rest2 => scanB fuel rest2 { st with buffer := st.buffer ++ [c, c2] }
      | [] => scanB fuel rest { st with buffer := st.buffer ++ [c] }
    else if c = '(' then
      match matchEW (c :: rest) with
      | some (content, numStr, after) =>
        let w :=
          match parseFloatQ numStr with
          | some v => v
          | none => Q.one
        flushB st ++
          ⟨SegKind.weight, '(' :: content ++ ':' :: numStr ++ [')'],
            unescapePixAI (trimChars content), some w⟩ ::
          scanB fuel after { st with buffer := [] }
      | none => flushB st ++ scanB fuel rest ⟨st.paren + 1, st.square, []⟩
    else if c = ')' then flushB st ++ scanB fuel rest ⟨st.paren - 1, st.square, []⟩
    else if c = '[' then flushB st ++ scanB fuel rest ⟨st.paren, st.square + 1, []⟩
    else if c = ']' then flushB st ++ scanB fuel rest ⟨st.paren, st.square - 1, []⟩
    else if c = ',' then flushB st ++ scanB fuel rest ⟨st.paren, st.square, []⟩
    else scanB fuel rest { st with buffer := st.buffer ++ [c] }

def initB : StateB := ⟨0, 0, []⟩

def parsePixAI (t : String) : List Segment := scanB (t.data.length + 1) t.data initB

/-! ### Serializers -/

/-- Exponent of the smallest power of 10 clearing the denominator (≤ 40). -/
def decExp (q : Q) : Option ℕ :=
  (List.range 41).find? (fun k => (qmul q (qpow ⟨10, 1⟩ k)).den == 1)

def padZeros (k : ℕ) (ds : List Char) : List Char :=
  List.replicate (k - ds.length) '0' ++ ds

/-- Decimal rendering of a nonnegative `Q` (JS shortest `Number.toString` for
the decimal fractions the pipeline produces). -/
def qToCharsPos (q : Q) : List Char :=
  match decExp q with
  | some 0 => natDigits q.num.toNat
  | some (k + 1) =>
    let m := (qmul q (qpow ⟨10, 1⟩ (k + 1))).num.toNat
    natDigits (m / 10 ^ (k + 1)) ++ '.' :: padZeros (k + 1) (natDigits (m % 10 ^ (k + 1)))
  | none => natDigits q.num.toNat ++ '/' :: natDigits q.den

def qToChars (q : Q) : List Char :=
  if qlt q ⟨0, 1⟩ then '-' :: qToCharsPos (qabs q) else qToCharsPos q

/-- `seg.weight || 1.0` (JS `||`: `undefined` and `0` both fall back). -/
def wOr1 : Option Q → Q
  | none => Q.one
  | some w => if w = ⟨0, 1⟩ then Q.one else w

def keepB (s : Segment) : Bool := !s.content.isEmpty && !(trimChars s.content).isEmpty

def renderB (s : Segment) : List Char :=
  let w := wOr1 s.weight
  let c := escapePixAI s.content
  if w = Q.one then c else '(' :: c ++ ':' :: qToChars w ++ [')']

def joinSep : List (List Char) → List Char
  | [] => []
  | [x] => x
  | x :: xs => x ++ ',' :: ' ' :: joinSep xs

def segmentsToPixAI (segs : List Segment) : String :=
  ⟨joinSep ((segs.filter keepB).map renderB)⟩

/-- Template rendering of `seg.weight` (prints `undefined` when absent, as a
JS template literal does). -/
def weightChars : Option Q → List Char
  | none => "undefined".data
  | some q => qToChars q

def renderA (s : Segment) : List Char :=
  if s.kind = SegKind.text ∨ s.weight = some Q.one then
    if s.content = [] then s.raw else s.content
  else
    weightChars s.weight ++ ':' :: ':' :: (s.content ++ [':', ':'])

def segmentsToNovelAI (segs : List Segment) : String :=
  ⟨joinSep (segs.map renderA)⟩

/-! ### Direction orchestrator (the `Converter` `useEffect`) -/

def isNonNegW (s : Segment) : Bool :=
  match s.weight with
  | none => true
  | some w => decide (qle ⟨0, 1⟩ w)

def isNegW (s : Segment) : Bool :=
  match s.weight with
  | none => false
  | some w => decide (qlt w ⟨0, 1⟩)

/-- NAI → PixAI direction: parse, split by weight polarity, serialize.
Returns (result, negative result, segments for display). -/
def naiToPix (sourceText : String) : String × String × List Segment :=
  let parsed := parseNovelAI sourceText
  let positiveSegs := parsed.filter isNonNegW
  let negativeSegs := (parsed.filter isNegW).map
    (fun s => { s with weight := s.weight.map qabs })
  (segmentsToPixAI positiveSegs, segmentsToPixAI negativeSegs, parsed)

/-- PixAI → NAI direction: parse both fields, force the negative field's
weights negative, merge, serialize to the single NAI field. -/
def pixToNai (sourceText sourceNegativeText : String) : String × String × List Segment :=
  let positiveSegs := parsePixAI sourceText
  let negativeSegs := (parsePixAI sourceNegativeText).map
    (fun s => { s with weight := some (qmul (wOr1 s.weight) ⟨-1, 1⟩) })
  let allSegments := positiveSegs ++ negativeSegs
  (segmentsToNovelAI allSegments, "", allSegments)

/-! ### Id-carrying variants (modelling `generateId` / `Math.random`)

`generateId` draws from the shared `Math.random` PRNG.  The PRNG is modelled
as a state `g : ℕ` that every draw advances; a draw returns the current
state as the id. -/

structure SegmentI where
  id : ℕ
  seg : Segment
deriving DecidableEq

def generateId (g : ℕ) : ℕ × ℕ := (g, g + 1)

def flushAIds (st : StateA) (g : ℕ) : List SegmentI × ℕ :=
  let t := trimChars st.buffer
  if t = [] then ([], g)
  else
    let w := roundWeight (qmul (qmul st.base (qzpow ⟨21, 20⟩ st.curly)) (qzpow ⟨19, 20⟩ st.square))
    ([⟨(generateId g).1,
        ⟨if w = Q.one then SegKind.text else SegKind.weight, t, t, some w⟩⟩],
      (generateId g).2)

def scanAIds : ℕ → List Char → StateA → ℕ → List SegmentI × ℕ
  | 0, _, st, g => flushAIds st g
  | _ + 1, [], st, g => flushAIds st g
  | fuel + 1, c :: rest, st, g =>
    match matchWC (c :: rest) with
    | some (numStr, after) =>
      let newBase : Q :=
        if numStr = [] then Q.one
        else
          match parseFloatQ numStr with
          | some w => w
          | none => st.base
      let f := flushAIds st g
      let r := scanAIds fuel after ⟨newBase, 0, 0, []⟩ f.2
      (f.1 ++ r.1, r.2)
    | none =>
      if c = '{' then
        let f := flushAIds st g
        let r := scanAIds fuel rest ⟨st.base, st.curly + 1, st.square, []⟩ f.2
        (f.1 ++ r.1, r.2)
      else if c = '}' then
        let f := flushAIds st g
        let r := scanAIds fuel rest ⟨st.base, st.curly - 1, st.square, []⟩ f.2
        (f.1 ++ r.1, r.2)
      else if c = '[' then
        let f := flushAIds st g
        let r := scanAIds fuel rest ⟨st.base, st.curly, st.square + 1, []⟩ f.2
        (f.1 ++ r.1, r.2)
      else if c = ']' then
        let f := flushAIds st g
        let r := scanAIds fuel rest ⟨st.base, st.curly, st.square - 1, []⟩ f.2
        (f.1 ++ r.1, r.2)
      else if c = ',' then
        let f := flushAIds st g
        let r := scanAIds fuel rest ⟨st.base, st.curly, st.square, []⟩ f.2
        (f.1 ++ r.1, r.2)
      else scanAIds fuel rest ⟨st.base, st.curly, st.square, st.buffer ++ [c]⟩ g

def parseNovelAIIds (t : String) (g : ℕ) : List SegmentI × ℕ :=
  scanAIds (t.data.length + 1) t.data initA g

def flushBIds (st : StateB) (g : ℕ) : List SegmentI × ℕ :=
  let t := trimChars st.buffer
  if t = [] then ([], g)
  else
    let w := roundWeight (qmul (qmul Q.one (qpow ⟨11, 10⟩ st.paren)) (qpow ⟨9, 10⟩ st.square))
    ([⟨(generateId g).1,
        ⟨if w = Q.one then SegKind.text else SegKind.weight, t, unescapePixAI t, some w⟩⟩],
      (generateId g).2)

def scanBIds : ℕ → List Char → StateB → ℕ → List SegmentI × ℕ
  | 0, _, st, g => flushBIds st g
  | _ + 1, [], st, g => flushBIds st g
  | fuel + 1, c :: rest, st, g =>
    if c = '\\' then
      match rest with
      | c2 :: rest2 => scanBIds fuel rest2 { st with buffer := st.buffer ++ [c, c2] } g
      | [] => scanBIds fuel rest { st with buffer := st.buffer ++ [c] } g
    else if c = '(' then
      match matchEW (c :: rest) with
      | some (content, numStr, after) =>
        let w :=
          match parseFloatQ numStr with
          | some v => v
          | none => Q.one
        let f := flushBIds st g
        let r := scanBIds fuel after { st with buffer := [] } (generateId f.2).2
        (f.1 ++
          ⟨(generateId f.2).1,
            ⟨SegKind.weight, '(' :: content ++ ':' :: numStr ++ [')'],
              unescapePixAI (trimChars content), some w⟩⟩ :: r.1, r.2)
      | none =>
        let f := flushBIds st g
        let r := scanBIds fuel rest ⟨st.paren + 1, st.square, []⟩ f.2
        (f.1 ++ r.1, r.2)
    else if c = ')' then
      let f := flushBIds st g
      let r := scanBIds fuel rest ⟨st.paren - 1, st.square, []⟩ f.2
      (f.1 ++ r.1, r.2)
    else if c = '[' then
      let f := flushBIds st g
      let r := scanBIds fuel rest ⟨st.paren, st.square + 1, []⟩ f.2
      (f.1 ++ r.1, r.2)
    else if c = ']' then
      let f := flushBIds st g
      let r := scanBIds fuel rest ⟨st.paren, st.square - 1, []⟩ f.2
      (f.1 ++ r.1, r.2)
    else if c = ',' then
      let f := flushBIds st g
      let r := scanBIds fuel rest ⟨st.paren, st.square, []⟩ f.2
      (f.1 ++ r.1, r.2)
    else scanBIds fuel rest { st with buffer := st.buffer ++ [c] } g

def parsePixAIIds (t : String) (g : ℕ) : List SegmentI × ℕ :=
  scanBIds (t.data.length + 1) t.data initB g

theorem flushAIds_seg (st : StateA) (g : ℕ) :
    (flushAIds st g).1.map SegmentI.seg = flushA st := by
  unfold flushAIds flushA
  by_cases h : trimChars st.buffer = [] <;> simp [h]

theorem scanAIds_seg :
    ∀ fuel cs st g, (scanAIds fuel cs st g).1.map SegmentI.seg = (scanA fuel cs st).2 := by
  intro fuel
  induction fuel with
  | zero => intro cs st g; simp [scanAIds, scanA, flushAIds_seg]
  | succ fuel ih =>
    intro cs st g
    match cs with
    | [] => simp [scanAIds, scanA, flushAIds_seg]
    | c :: rest =>
      rw [scanAIds, scanA]
      cases h : matchWC (c :: rest) with
      | some p =>
        simp only [h, List.map_append, flushAIds_seg, ih]
      | none =>
        simp only [h]
        split_ifs <;> simp only [List.map_append, flushAIds_seg, ih]

theorem flushBIds_seg (st : StateB) (g : ℕ) :
    (flushBIds st g).1.map SegmentI.seg = flushB st := by
  unfold flushBIds flushB
  by_cases h : trimChars st.buffer = [] <;> simp [h]

theorem scanBIds_seg :
    ∀ fuel cs st g, (scanBIds fuel cs st g).1.map SegmentI.seg = scanB fuel cs st := by
  intro fuel cs st g
  induction fuel, cs, st, g using scanBIds.induct <;>
    simp_all [scanBIds, scanB, flushBIds_seg]

/-! ### Claim theorems -/

/-- C1 (code bug evaluation).  In the B→A direction the code does rewrite the
negative field's weights to `(weight or 1.0) * −1` and concatenate, but the
Format A serializer's plain-text fast path (`seg.type === 'text'`) fires on
the merged negative segment (its kind is still the text kind), so positive
`"good"` and negative `"bad"` serialize to `"good, bad"`, not the claimed
`"good, -1::bad::"`: the −1 weight is silently dropped. -/
theorem C1_negative_merge_drops_sign :
    pixToNai "good" "bad" =
      ("good, bad", "",
        [⟨SegKind.text, "good".data, "good".data, some Q.one⟩,
         ⟨SegKind.text, "bad".data, "bad".data, some ⟨-1, 1⟩⟩]) ∧
    (pixToNai "good" "bad").1 ≠ "good, -1::bad::" := by decide

/-- C2 (code bug evaluation).  `weightControlRegex` has no sign, so in
`"2::good::, -1::bad::"` the `-` is ordinary text: the scan yields segments
`good` (weight 2), a junk `"-"` segment (weight 1) and `bad` (weight 1, not
−1).  The A→B split therefore routes everything to the positive output
(`"(good:2), -, bad"`) and leaves the negative output empty, instead of the
claimed positive `good`/negative `bad` partition. -/
theorem C2_partition_eval :
    naiToPix "2::good::, -1::bad::" =
      ("(good:2), -, bad", "",
        [⟨SegKind.weight, "good".data, "good".data, some ⟨2, 1⟩⟩,
         ⟨SegKind.text, "-".data, "-".data, some Q.one⟩,
         ⟨SegKind.text, "bad".data, "bad".data, some Q.one⟩]) := by decide

/-- C3 (code bug evaluation).  The explicit-weight override stores the parsed
literal completely unclamped: a 400-digit weight literal is stored as the
exact value `10^400 − 1`.  In IEEE semantics (`parseFloat`) this value is
`Infinity`, which the segment then carries, contradicting the finiteness
invariant; nothing in the scanner clamps or rejects it. -/
theorem C3_unclamped_weight_literal :
    (parsePixAI ⟨'(' :: 't' :: 'a' :: 'g' :: ':' :: (List.replicate 400 '9' ++ [')'])⟩).map
        Segment.weight = [some ⟨(10 : ℤ) ^ 400 - 1, 1⟩] := by decide

/-- C4 (confirmed).  `scan_a` resolves weights as
`base * 1.05^curlyDepth * 0.95^squareDepth` rounded to 2 decimals
(`Math.round`, half-up): `"{{tag}}"` gives `round(1.05², 2) = 1.1` and
`"[tag]"` gives `0.95`; the last two conjuncts exhibit the formula itself. -/
theorem C4_emphasis_math :
    parseNovelAI "\x7b\x7btag\x7d\x7d" =
      [⟨SegKind.weight, "tag".data, "tag".data, some ⟨11, 10⟩⟩] ∧
    parseNovelAI "[tag]" =
      [⟨SegKind.weight, "tag".data, "tag".data, some ⟨19, 20⟩⟩] ∧
    roundWeight (qmul (qmul Q.one (qzpow ⟨21, 20⟩ 2)) (qzpow ⟨19, 20⟩ 0)) = ⟨11, 10⟩ ∧
    roundWeight (qmul (qmul Q.one (qzpow ⟨21, 20⟩ 0)) (qzpow ⟨19, 20⟩ 1)) = ⟨19, 20⟩ := by decide

/-- C5 (confirmed).  A matching explicit-weight token takes its literal
numeric value, bypassing ambient depth: `"((tag:1.5))"` gives exactly `1.5`
(not `1.5·1.1²`), and in `"(buf(tag:1.5))"` the pending buffer `buf` is
flushed at the ambient depth-derived weight `1.1` before the override segment
is emitted with literal `1.5`. -/
theorem C5_override_literal :
    parsePixAI "((tag:1.5))" =
      [⟨SegKind.weight, "(tag:1.5)".data, "tag".data, some ⟨3, 2⟩⟩] ∧
    parsePixAI "(buf(tag:1.5))" =
      [⟨SegKind.weight, "buf".data, "buf".data, some ⟨11, 10⟩⟩,
       ⟨SegKind.weight, "(tag:1.5)".data, "tag".data, some ⟨3, 2⟩⟩] := by decide

/-- C6 (confirmed).  A weight-control token resets both depth counters to
zero and closing brackets have no floor: `"2::tag}}"` parses without error to
a single segment of weight 2 and leaves the curly depth at −2; conversely in
`"{{2::tag"` the `2::` token discards the two open braces, so `tag` gets
weight 2 (not `2·1.05²`) and the final curly depth is 0. -/
theorem C6_depth_reset_no_floor :
    parseNovelAI "2::tag\x7d\x7d" =
      [⟨SegKind.weight, "tag".data, "tag".data, some ⟨2, 1⟩⟩] ∧
    scanAFinal "2::tag\x7d\x7d" = ⟨⟨2, 1⟩, -2, 0, []⟩ ∧
    parseNovelAI "\x7b\x7b2::tag" =
      [⟨SegKind.weight, "tag".data, "tag".data, some ⟨2, 1⟩⟩] ∧
    scanAFinal "\x7b\x7b2::tag" = ⟨⟨2, 1⟩, 0, 0, []⟩ := by decide

/-- C7 counterexample.  A content containing `:` breaks the Format B
round-trip: the segment `{content "a:b", weight 1.5}` serializes to
`"(a:b:1.5)"`, which the override regex rejects (the content class excludes
`:`), so the scan reads an ambient-weighted `1.1` segment — off by 0.4,
far beyond the claimed 0.01 tolerance. -/
theorem C7_roundtrip_cex :
    (parsePixAI (segmentsToPixAI
        [⟨SegKind.weight, "a:b".data, "a:b".data, some ⟨3, 2⟩⟩])).map Segment.weight =
      [some ⟨11, 10⟩] ∧
    ¬ |toRat ⟨11, 10⟩ - toRat ⟨3, 2⟩| ≤ 1 / 100 := by
  refine ⟨by decide, ?_⟩
  unfold toRat
  norm_num
  rw [abs_of_nonneg (by norm_num : (0 : ℚ) ≤ 2 / 5)]
  norm_num

/-- C8 counterexample.  The Format B explicit-weight override path pushes its
segment without the trimmed-nonempty guard of the flush path: an override
token whose content is all whitespace, `"(  :1.5)"`, emits a segment whose
content is empty after trimming. -/
theorem C8_empty_override_cex :
    parsePixAI "(  :1.5)" = [⟨SegKind.weight, "(  :1.5)".data, [], some ⟨3, 2⟩⟩] ∧
    ¬ (∀ seg ∈ parsePixAI "(  :1.5)", trimChars seg.content ≠ []) := by decide

/-- C9 counterexample.  `segmentsToNovelAI` has no empty-content filter: a
segment whose content is a single space (empty after trimming) is not
skipped; it renders as `" "` instead of the empty string the claim demands. -/
theorem C9_novel_serializer_cex :
    segmentsToNovelAI [⟨SegKind.text, " ".data, " ".data, some Q.one⟩] = " " ∧
    trimChars (" ".data) = [] ∧
    segmentsToNovelAI [⟨SegKind.text, " ".data, " ".data, some Q.one⟩] ≠ "" := by decide

/-- C10 counterexample.  `generateId` draws from the shared `Math.random`
PRNG (modelled as the threaded state `g`), so two successive invocations of
the scanner on the same input return different segment sequences: the `id`
fields differ. -/
theorem C10_impure_ids_cex :
    (parseNovelAIIds "a" 0).1 ≠ (parseNovelAIIds "a" (parseNovelAIIds "a" 0).2).1 := by decide

/-- C10 amended.  The scanners are pure up to the `id` field: erasing ids,
the output is a function of the input text alone, independent of the PRNG
state — so two invocations agree on every field except `id`. -/
theorem C10_pure_mod_ids (t : String) (g : ℕ) :
    (parseNovelAIIds t g).1.map SegmentI.seg = parseNovelAI t ∧
    (parsePixAIIds t g).1.map SegmentI.seg = parsePixAI t :=
  ⟨scanAIds_seg .., scanBIds_seg ..⟩

/-! ### C9: serializer skipping/joining -/

theorem joinSep_cons (x : List Char) (xs : List (List Char)) :
    joinSep (x :: xs) = x ++ if xs = [] then [] else ',' :: ' ' :: joinSep xs := by
  cases xs <;> simp [joinSep]

theorem keepB_false_of_trim_nil (s : Segment) (h : trimChars s.content = []) :
    keepB s = false := by
  simp [keepB, h]

theorem keepB_true_of_trim_ne_nil (s : Segment) (h : trimChars s.content ≠ []) :
    keepB s = true := by
  have hc : s.content ≠ [] := by
    intro hc
    apply h
    rw [hc]
    rfl
  simp [keepB, hc, h]

/-- C9 amended.  `segmentsToPixAI` skips every segment whose trimmed content
is empty and joins the remaining rendered tags with `", "`;
`segmentsToNovelAI` joins the renderings of all segments with `", "` without
skipping empty-trimmed segments. -/
theorem C9_serializers :
    (∀ (s : Segment) (segs : List Segment), trimChars s.content = [] →
        segmentsToPixAI (s :: segs) = segmentsToPixAI segs) ∧
    (∀ (s : Segment) (segs : List Segment), trimChars s.content ≠ [] →
        segmentsToPixAI (s :: segs) =
          ⟨renderB s ++
            if segs.filter keepB = [] then []
            else ',' :: ' ' :: joinSep ((segs.filter keepB).map renderB)⟩) ∧
    (∀ (s : Segment) (segs : List Segment),
        segmentsToNovelAI (s :: segs) =
          ⟨renderA s ++
            if segs = [] then [] else ',' :: ' ' :: joinSep (segs.map renderA)⟩) := by
  refine ⟨?_, ?_, ?_⟩
  · intro s segs h
    unfold segmentsToPixAI
    rw [List.filter_cons, keepB_false_of_trim_nil s h]
    simp
  · intro s segs h
    unfold segmentsToPixAI
    rw [List.filter_cons, keepB_true_of_trim_ne_nil s h]
    simp only [if_true, List.map_cons, joinSep_cons]
    congr 1
    by_cases hf : segs.filter keepB = [] <;> simp [hf]
  · intro s segs
    unfold segmentsToNovelAI
    rw [List.map_cons, joinSep_cons]
    by_cases hs : segs = [] <;> simp [hs]

theorem C9_serializers_witness :
    segmentsToPixAI
        (⟨SegKind.text, " ".data, " ".data, some Q.one⟩ ::
          [⟨SegKind.text, "a".data, "a".data, some Q.one⟩]) =
      segmentsToPixAI [⟨SegKind.text, "a".data, "a".data, some Q.one⟩] ∧
    segmentsToPixAI
        (⟨SegKind.text, "a".data, "a".data, some Q.one⟩ ::
          [⟨SegKind.text, "b".data, "b".data, some Q.one⟩]) = "a, b" :=
  ⟨C9_serializers.1 _ _ (by decide),
   by rw [C9_serializers.2.1 _ _ (by decide)]; decide⟩


theorem mem_dropWhile_of_not {p : Char → Bool} {x : Char} :
    ∀ {l : List Char}, x ∈ l → p x = false → x ∈ l.dropWhile p := by
  intro l
  induction l with
  | nil => intro h; cases h
  | cons c r ih =>
    intro hx hpx
    rw [List.dropWhile_cons]
    by_cases hc : p c
    · simp only [hc, if_true]
      rcases List.mem_cons.mp hx with h | h
      · subst h; rw [hc] at hpx; cases hpx
      · exact ih h hpx
    · simp only [hc, if_false]
      exact hx

theorem trimRight_ne_nil_of_mem :
    ∀ {l : List Char} {x : Char}, x ∈ l → wsChar x = false → trimRightChars l ≠ [] := by
  intro l
  induction l with
  | nil => intro x h; cases h
  | cons c r ih =>
    intro x hx hwx
    simp only [trimRightChars]
    rcases List.mem_cons.mp hx with h | h
    · subst h
      cases htr : trimRightChars r with
      | nil => simp [hwx]
      | cons a as => simp
    · have hne := ih h hwx
      cases htr : trimRightChars r with
      | nil => exact absurd htr hne
      | cons a as => simp

theorem trim_ne_nil_of_mem {l : List Char} {x : Char} (hx : x ∈ l) (hwx : wsChar x = false) :
    trimChars l ≠ [] :=
  trimRight_ne_nil_of_mem (mem_dropWhile_of_not hx hwx) hwx

theorem dropWhile_head_false {p : Char → Bool} :
    ∀ {l : List Char} {c : Char} {r : List Char}, l.dropWhile p = c :: r → p c = false := by
  intro l
  induction l with
  | nil => intro c r h; cases h
  | cons a l' ih =>
    intro c r h
    rw [List.dropWhile_cons] at h
    by_cases ha : p a
    · simp only [ha, if_true] at h
      exact ih h
    · simp only [ha, if_false] at h
      cases h
      simpa using ha

theorem trimRight_head :
    ∀ {l : List Char} {c : Char} {r : List Char},
      trimRightChars l = c :: r → ∃ r2, l = c :: r2 := by
  intro l
  induction l with
  | nil => intro c r h; cases h
  | cons a l' ih =>
    intro c r h
    simp only [trimRightChars] at h
    cases htr : trimRightChars l' with
    | nil =>
      rw [htr] at h
      by_cases hws : wsChar a
      · simp [hws] at h
      · simp only [hws, if_false] at h
        cases h
        exact ⟨l', rfl⟩
    | cons b bs =>
      rw [htr] at h
      cases h
      exact ⟨l', rfl⟩

theorem trim_head_not_ws {l : List Char} {c : Char} {r : List Char}
    (h : trimChars l = c :: r) : wsChar c = false := by
  obtain ⟨r2, hr2⟩ := trimRight_head h
  exact dropWhile_head_false hr2

theorem trimRight_cons_of_cons (c : Char) {l : List Char} {a : Char} {as : List Char}
    (h : trimRightChars l = a :: as) : trimRightChars (c :: l) = c :: a :: as := by
  simp only [trimRightChars, h]

theorem trimRight_idem : ∀ l : List Char, trimRightChars (trimRightChars l) = trimRightChars l := by
  intro l
  induction l with
  | nil => rfl
  | cons c r ih =>
    cases htr : trimRightChars r with
    | nil =>
      by_cases hws : wsChar c
      · rw [show trimRightChars (c :: r) = [] by simp [trimRightChars, htr, hws]]
        rfl
      · rw [show trimRightChars (c :: r) = [c] by simp [trimRightChars, htr, hws]]
        simp [trimRightChars, hws]
    | cons a as =>
      have h1 : trimRightChars (c :: r) = c :: a :: as := trimRight_cons_of_cons c htr
      rw [h1]
      have h2 : trimRightChars (a :: as) = a :: as := by rw [← htr]; exact ih
      exact trimRight_cons_of_cons c h2

theorem dropWhile_trim (l : List Char) : (trimChars l).dropWhile wsChar = trimChars l := by
  cases h : trimChars l with
  | nil => rfl
  | cons c r =>
    have := trim_head_not_ws h
    simp [List.dropWhile_cons, this]

theorem trim_idem (l : List Char) : trimChars (trimChars l) = trimChars l := by
  show trimRightChars ((trimChars l).dropWhile wsChar) = trimChars l
  rw [dropWhile_trim]
  exact trimRight_idem _

theorem unescGo_cons (c a : Char) (as : List Char) :
    unescGo c (a :: as) =
      if c = '\\' ∧ (a = '(' ∨ a = ')') then
        a ::
          (match as with
          | [] => []
          | c3 :: r3 => unescGo c3 r3)
      else c :: unescGo a as := by
  rw [unescGo.eq_def]

theorem unescGo_head (c : Char) (r : List Char) (h : wsChar c = false) :
    ∃ c2 r2, unescGo c r = c2 :: r2 ∧ wsChar c2 = false := by
  cases r with
  | nil => exact ⟨c, [], rfl, h⟩
  | cons a as =>
    rw [unescGo_cons]
    by_cases hb : c = '\\' ∧ (a = '(' ∨ a = ')')
    · rw [if_pos hb]
      refine ⟨a, _, rfl, ?_⟩
      rcases hb.2 with h2 | h2 <;> subst h2 <;> decide
    · rw [if_neg hb]
      exact ⟨c, _, rfl, h⟩

theorem trim_unescape_ne_nil {l : List Char} (h : trimChars l ≠ []) :
    trimChars (unescapePixAI (trimChars l)) ≠ [] := by
  cases ht : trimChars l with
  | nil => exact absurd ht h
  | cons c r =>
    have hnw := trim_head_not_ws ht
    obtain ⟨c2, r2, heq, hnw2⟩ := unescGo_head c r hnw
    show trimChars (unescapePixAI (c :: r)) ≠ []
    simp only [unescapePixAI, heq]
    exact trim_ne_nil_of_mem (List.mem_cons_self _ _) hnw2

theorem flushA_content (st : StateA) : ∀ seg ∈ flushA st, trimChars seg.content ≠ [] := by
  intro seg hseg
  unfold flushA at hseg
  by_cases h : trimChars st.buffer = []
  · simp [h] at hseg
  · simp only [h, if_false, List.mem_singleton] at hseg
    subst hseg
    show trimChars (trimChars st.buffer) ≠ []
    rw [trim_idem]
    exact h

theorem flushB_content (st : StateB) : ∀ seg ∈ flushB st, trimChars seg.content ≠ [] := by
  intro seg hseg
  unfold flushB at hseg
  by_cases h : trimChars st.buffer = []
  · simp [h] at hseg
  · simp only [h, if_false, List.mem_singleton] at hseg
    subst hseg
    exact trim_unescape_ne_nil h

theorem scanA_content :
    ∀ (fuel : ℕ) (cs : List Char) (st : StateA),
      ∀ seg ∈ (scanA fuel cs st).2, trimChars seg.content ≠ [] := by
  intro fuel cs st
  induction fuel, cs, st using scanA.induct with
  | case1 cs st =>
    intro seg hseg
    exact flushA_content _ _ hseg
  | case2 n st =>
    intro seg hseg
    exact flushA_content _ _ hseg
  | case3 fuel c rest st numStr after h nb ih =>
    intro seg hseg
    simp only [scanA, h] at hseg
    rcases List.mem_append.mp hseg with hseg | hseg
    · exact flushA_content _ _ hseg
    · exact ih _ hseg
  | case4 fuel rest st h ih =>
    intro seg hseg
    simp [scanA, h] at hseg
    rcases hseg with hseg | hseg
    · exact flushA_content _ _ hseg
    · exact ih _ hseg
  | case5 fuel rest st h _ ih =>
    intro seg hseg
    simp [scanA, h] at hseg
    rcases hseg with hseg | hseg
    · exact flushA_content _ _ hseg
    · exact ih _ hseg
  | case6 fuel rest st h _ _ ih =>
    intro seg hseg
    simp [scanA, h] at hseg
    rcases hseg with hseg | hseg
    · exact flushA_content _ _ hseg
    · exact ih _ hseg
  | case7 fuel rest st h _ _ _ ih =>
    intro seg hseg
    simp [scanA, h] at hseg
    rcases hseg with hseg | hseg
    · exact flushA_content _ _ hseg
    · exact ih _ hseg
  | case8 fuel rest st h _ _ _ _ ih =>
    intro seg hseg
    simp [scanA, h] at hseg
    rcases hseg with hseg | hseg
    · exact flushA_content _ _ hseg
    · exact ih _ hseg
  | case9 fuel c rest st h h1 h2 h3 h4 h5 ih =>
    intro seg hseg
    simp only [scanA, h, h1, h2, h3, h4, h5, if_false] at hseg
    exact ih _ hseg

theorem scanB_kind_of_trim_nil :
    ∀ (fuel : ℕ) (cs : List Char) (st : StateB),
      ∀ seg ∈ scanB fuel cs st, trimChars seg.content = [] → seg.kind = SegKind.weight := by
  intro fuel cs st
  induction fuel, cs, st using scanB.induct with
  | case1 cs st =>
    intro seg hseg htrim
    exact absurd htrim (flushB_content _ _ hseg)
  | case2 n st =>
    intro seg hseg htrim
    exact absurd htrim (flushB_content _ _ hseg)
  | case3 fuel st c2 rest2 ih =>
    intro seg hseg htrim
    simp [scanB] at hseg
    exact ih _ hseg htrim
  | case4 fuel st ih =>
    intro seg hseg htrim
    simp [scanB] at hseg
    exact ih _ hseg htrim
  | case5 fuel rest st content numStr after _ h ih =>
    intro seg hseg htrim
    simp only [scanB, h] at hseg
    rcases List.mem_append.mp hseg with hseg | hseg
    · exact absurd htrim (flushB_content _ _ hseg)
    · rcases List.mem_cons.mp hseg with hseg | hseg
      · subst hseg; rfl
      · exact ih _ hseg htrim
  | case6 fuel rest st _ h ih =>
    intro seg hseg htrim
    simp only [scanB, h] at hseg
    rcases List.mem_append.mp hseg with hseg | hseg
    · exact absurd htrim (flushB_content _ _ hseg)
    · exact ih _ hseg htrim
  | case7 fuel rest st _ _ ih =>
    intro seg hseg htrim
    simp [scanB] at hseg
    rcases hseg with hseg | hseg
    · exact absurd htrim (flushB_content _ _ hseg)
    · exact ih _ hseg htrim
  | case8 fuel rest st _ _ _ ih =>
    intro seg hseg htrim
    simp [scanB] at hseg
    rcases hseg with hseg | hseg
    · exact absurd htrim (flushB_content _ _ hseg)
    · exact ih _ hseg htrim
  | case9 fuel rest st _ _ _ _ ih =>
    intro seg hseg htrim
    simp [scanB] at hseg
    rcases hseg with hseg | hseg
    · exact absurd htrim (flushB_content _ _ hseg)
    · exact ih _ hseg htrim
  | case10 fuel rest st _ _ _ _ _ ih =>
    intro seg hseg htrim
    simp [scanB] at hseg
    rcases hseg with hseg | hseg
    · exact absurd htrim (flushB_content _ _ hseg)
    · exact ih _ hseg htrim
  | case11 fuel c rest st h1 h2 h3 h4 h5 h6 ih =>
    intro seg hseg htrim
    simp only [scanB, h1, h2, h3, h4, h5, h6, if_false] at hseg
    exact ih _ hseg htrim

/-- C8 amended.  Every segment emitted by `scan_a` has content that is
non-empty after trimming, and so does every buffer-flush segment of
`scan_b`; but the Format B explicit-weight override path applies no such
guard, so an empty-after-trim content can only come from that path (such
segments always carry the weighted kind). -/
theorem C8_trimmed_content :
    (∀ t : String, ∀ seg ∈ parseNovelAI t, trimChars seg.content ≠ []) ∧
    (∀ t : String, ∀ seg ∈ parsePixAI t,
        trimChars seg.content = [] → seg.kind = SegKind.weight) :=
  ⟨fun t => scanA_content _ t.data initA, fun t => scanB_kind_of_trim_nil _ t.data initB⟩

theorem C8_trimmed_content_witness :
    trimChars ((⟨SegKind.text, "a".data, "a".data, some Q.one⟩ : Segment)).content ≠ [] ∧
    (⟨SegKind.weight, "(  :1.5)".data, [], some ⟨3, 2⟩⟩ : Segment).kind = SegKind.weight :=
  ⟨C8_trimmed_content.1 "a" _ (by decide),
   C8_trimmed_content.2 "(  :1.5)" _ (by decide) (by decide)⟩

/-! ### C7: Format B round-trip -/

theorem natDigitsF_spec : ∀ f n, n < f →
    natOfDigits (natDigitsF f n) = n ∧ (∀ c ∈ natDigitsF f n, c.isDigit = true) ∧
      natDigitsF f n ≠ [] := by
  intro f
  induction f with
  | zero => intro n h; omega
  | succ f ih =>
    intro n h
    by_cases h10 : n < 10
    · simp only [natDigitsF, h10, if_true]
      refine ⟨?_, ?_, by simp⟩
      · show natOfDigits [Char.ofNat (48 + n)] = n
        have hgen : ∀ m : ℕ, m < 10 → natOfDigits [Char.ofNat (48 + m)] = m := by decide
        exact hgen n h10
      · intro c hc
        simp only [List.mem_singleton] at hc
        subst hc
        have hgen : ∀ m : ℕ, m < 10 → (Char.ofNat (48 + m)).isDigit = true := by decide
        exact hgen n h10
    · have hd : n / 10 < f := by
        have := Nat.div_lt_self (show 0 < n by omega) (show (1 : ℕ) < 10 by omega)
        omega
      simp only [natDigitsF, h10, if_false]
      obtain ⟨ih1, ih2, _⟩ := ih (n / 10) hd
      refine ⟨?_, ?_, by simp⟩
      · unfold natOfDigits
        rw [List.foldl_append]
        unfold natOfDigits at ih1
        rw [ih1]
        show 10 * (n / 10) + digitVal (Char.ofNat (48 + n % 10)) = n
        have hm : n % 10 < 10 := Nat.mod_lt _ (by omega)
        have hgen : ∀ m : ℕ, m < 10 → digitVal (Char.ofNat (48 + m)) = m := by decide
        rw [hgen _ hm]
        omega
      · intro c hc
        rcases List.mem_append.mp hc with hc | hc
        · exact ih2 c hc
        · simp only [List.mem_singleton] at hc
          subst hc
          have hm : n % 10 < 10 := Nat.mod_lt _ (by omega)
          have hgen : ∀ m : ℕ, m < 10 → (Char.ofNat (48 + m)).isDigit = true := by decide
          exact hgen _ hm

theorem natOfDigits_natDigits (n : ℕ) : natOfDigits (natDigits n) = n :=
  (natDigitsF_spec (n + 1) n (Nat.lt_succ_self n)).1

theorem natDigits_digits (n : ℕ) : ∀ c ∈ natDigits n, c.isDigit = true :=
  (natDigitsF_spec (n + 1) n (Nat.lt_succ_self n)).2.1

theorem natDigits_ne_nil (n : ℕ) : natDigits n ≠ [] :=
  (natDigitsF_spec (n + 1) n (Nat.lt_succ_self n)).2.2

theorem natDigitsF_len : ∀ f n k, n < f → n < 10 ^ k → 0 < k →
    (natDigitsF f n).length ≤ k := by
  intro f
  induction f with
  | zero => intro n k h; omega
  | succ f ih =>
    intro n k hf hk hkpos
    by_cases h10 : n < 10
    · simp only [natDigitsF, h10, if_true, List.length_singleton]
      omega
    · simp only [natDigitsF, h10, if_false, List.length_append, List.length_singleton]
      have hd : n / 10 < f := by
        have := Nat.div_lt_self (show 0 < n by omega) (show (1 : ℕ) < 10 by omega)
        omega
      have hk2 : n / 10 < 10 ^ (k - 1) := by
        have hpow : 10 ^ k = 10 ^ (k - 1) * 10 := by
          rw [← pow_succ]
          congr 1
          omega
        rw [hpow] at hk
        exact Nat.div_lt_of_lt_mul (by omega)
      have hk1 : 0 < k - 1 := by
        by_contra hcon
        have hk1' : k = 1 := by omega
        subst hk1'
        norm_num at hk
        omega
      have := ih (n / 10) (k - 1) hd hk2 hk1
      omega

theorem natDigits_len (n k : ℕ) (hk : n < 10 ^ k) (hkpos : 0 < k) :
    (natDigits n).length ≤ k :=
  natDigitsF_len (n + 1) n k (Nat.lt_succ_self n) hk hkpos

theorem natOfDigits_replicate_zero : ∀ (j : ℕ) (ds : List Char),
    natOfDigits (List.replicate j '0' ++ ds) = natOfDigits ds := by
  intro j
  induction j with
  | zero => simp
  | succ j ih =>
    intro ds
    rw [List.replicate_succ, List.cons_append]
    unfold natOfDigits
    rw [List.foldl_cons]
    have h0 : 10 * 0 + digitVal '0' = 0 := by decide
    rw [h0]
    exact ih ds

theorem natOfDigits_padZeros (k : ℕ) (ds : List Char) :
    natOfDigits (padZeros k ds) = natOfDigits ds :=
  natOfDigits_replicate_zero _ _

theorem padZeros_digits {k : ℕ} {ds : List Char} (h : ∀ c ∈ ds, c.isDigit = true) :
    ∀ c ∈ padZeros k ds, c.isDigit = true := by
  intro c hc
  rcases List.mem_append.mp hc with hc | hc
  · rw [List.eq_of_mem_replicate hc]
    decide
  · exact h c hc

theorem padZeros_len {k : ℕ} {ds : List Char} (h : ds.length ≤ k) :
    (padZeros k ds).length = k := by
  simp [padZeros]
  omega

theorem takeWhile_all_append {p : Char → Bool} :
    ∀ {D r : List Char}, (∀ c ∈ D, p c = true) →
      (D ++ r).takeWhile p = D ++ r.takeWhile p := by
  intro D
  induction D with
  | nil => intro r _; rfl
  | cons x D' ih =>
    intro r h
    rw [List.cons_append, List.takeWhile_cons]
    simp only [h x (List.mem_cons_self ..), if_true, List.cons_append]
    rw [ih fun c hc => h c (List.mem_cons_of_mem _ hc)]

theorem dropWhile_all_append {p : Char → Bool} :
    ∀ {D r : List Char}, (∀ c ∈ D, p c = true) →
      (D ++ r).dropWhile p = r.dropWhile p := by
  intro D
  induction D with
  | nil => intro r _; rfl
  | cons x D' ih =>
    intro r h
    rw [List.cons_append, List.dropWhile_cons]
    simp only [h x (List.mem_cons_self ..), if_true]
    exact ih fun c hc => h c (List.mem_cons_of_mem _ hc)

theorem takeWhile_all {p : Char → Bool} {l : List Char} (h : ∀ c ∈ l, p c = true) :
    l.takeWhile p = l := by
  have := takeWhile_all_append (r := []) h
  simpa using this

theorem dropWhile_all {p : Char → Bool} {l : List Char} (h : ∀ c ∈ l, p c = true) :
    l.dropWhile p = [] := by
  have := dropWhile_all_append (r := []) h
  simpa using this

def NumToken (nu : List Char) : Prop :=
  ∃ D F, D ≠ [] ∧ (∀ c ∈ D, c.isDigit = true) ∧
    ((F = [] ∧ nu = D) ∨
      (F ≠ [] ∧ (∀ c ∈ F, c.isDigit = true) ∧ nu = D ++ '.' :: F))

theorem toRat_zero_one : toRat (⟨0, 1⟩ : Q) = 0 := by
  norm_num [toRat]

theorem mkQ100_pos_facts (n : ℕ) (hn : 0 < n) :
    (mkQ (n : ℤ) 100).Normal ∧ toRat (mkQ (n : ℤ) 100) = (n : ℚ) / 100 ∧
      0 < (mkQ (n : ℤ) 100).num := by
  have hnorm := mkQ_normal (n : ℤ) 100 (by norm_num)
  have hval : toRat (mkQ (n : ℤ) 100) = (n : ℚ) / 100 := by
    rw [toRat_mkQ _ _ (by norm_num)]
    norm_num
  refine ⟨hnorm, hval, ?_⟩
  have hpos : (0 : ℚ) < toRat (mkQ (n : ℤ) 100) := by
    rw [hval]
    positivity
  have hnum := (toRat_num_den _ hnorm).1
  rw [← hnum]
  exact Rat.num_pos.mpr hpos

theorem mkQ100_ne_zero {n : ℕ} (hn : 0 < n) : mkQ (n : ℤ) 100 ≠ ⟨0, 1⟩ := by
  intro h
  obtain ⟨_, hval, _⟩ := mkQ100_pos_facts n hn
  rw [h, toRat_zero_one] at hval
  have hq : (n : ℚ) = 0 := by
    field_simp at hval
    exact hval.symm
  have : n = 0 := by exact_mod_cast hq
  omega

theorem qpow_ten_facts (k : ℕ) :
    (qpow ⟨10, 1⟩ k).Normal ∧ toRat (qpow ⟨10, 1⟩ k) = (10 : ℚ) ^ k ∧
      (qpow ⟨10, 1⟩ k).num ≠ 0 := by
  have hden : (0 : ℕ) < (⟨10, 1⟩ : Q).den := by decide
  have hnorm := qpow_normal ⟨10, 1⟩ hden k
  have hval : toRat (qpow ⟨10, 1⟩ k) = (10 : ℚ) ^ k := by
    rw [toRat_qpow _ hden k]
    norm_num [toRat]
  refine ⟨hnorm, hval, ?_⟩
  have hpos : (0 : ℚ) < toRat (qpow ⟨10, 1⟩ k) := by
    rw [hval]
    positivity
  have hnum := (toRat_num_den _ hnorm).1
  intro hz
  have h4 : 0 < (toRat (qpow ⟨10, 1⟩ k)).num := Rat.num_pos.mpr hpos
  rw [hnum, hz] at h4
  exact lt_irrefl 0 h4

theorem decExp_mkQ100 (n : ℕ) (hn : 0 < n) :
    ∃ k, decExp (mkQ (n : ℤ) 100) = some k ∧
      (qmul (mkQ (n : ℤ) 100) (qpow ⟨10, 1⟩ k)).den = 1 := by
  cases h : decExp (mkQ (n : ℤ) 100) with
  | some k =>
    refine ⟨k, rfl, ?_⟩
    have hp := List.find?_some h
    simpa using hp
  | none =>
    exfalso
    have h2 := List.find?_eq_none.mp h 2 (by simp)
    apply h2
    obtain ⟨hnorm, hval, _⟩ := mkQ100_pos_facts n hn
    have hq : qpow (⟨10, 1⟩ : Q) 2 = ⟨100, 1⟩ := by decide
    rw [hq]
    have hnorm2 : (qmul (mkQ (n : ℤ) 100) ⟨100, 1⟩).Normal :=
      qmul_normal _ _ hnorm.1 (by decide)
    have hval2 : toRat (qmul (mkQ (n : ℤ) 100) ⟨100, 1⟩) = (n : ℚ) := by
      rw [toRat_qmul _ _ hnorm.1 (by decide), hval]
      rw [show toRat ⟨100, 1⟩ = 100 from by norm_num [toRat]]
      field_simp
    have hden := (toRat_num_den _ hnorm2).2
    rw [hval2, Rat.den_natCast] at hden
    simp [← hden]

theorem qToChars_mkQ100 (n : ℕ) (hn : 0 < n) :
    NumToken (qToChars (mkQ (n : ℤ) 100)) ∧
      parseFloatQ (qToChars (mkQ (n : ℤ) 100)) = some (mkQ (n : ℤ) 100) := by
  obtain ⟨hwnorm, hwval, hwnum⟩ := mkQ100_pos_facts n hn
  obtain ⟨k, hk, hkden⟩ := decExp_mkQ100 n hn
  have hnotneg : ¬ qlt (mkQ (n : ℤ) 100) ⟨0, 1⟩ := by
    unfold qlt
    simp only [mul_one]
    omega
  have hqc : qToChars (mkQ (n : ℤ) 100) = qToCharsPos (mkQ (n : ℤ) 100) := by
    unfold qToChars
    rw [if_neg hnotneg]
  rw [hqc]
  obtain ⟨hpnorm, hpval, hpnum⟩ := qpow_ten_facts k
  have hPnorm : (qmul (mkQ (n : ℤ) 100) (qpow ⟨10, 1⟩ k)).Normal :=
    qmul_normal _ _ hwnorm.1 hpnorm.1
  have hPval : toRat (qmul (mkQ (n : ℤ) 100) (qpow ⟨10, 1⟩ k)) = (n : ℚ) / 100 * 10 ^ k := by
    rw [toRat_qmul _ _ hwnorm.1 hpnorm.1, hwval, hpval]
  have hPnum_pos : 0 < (qmul (mkQ (n : ℤ) 100) (qpow ⟨10, 1⟩ k)).num := by
    have hpos : (0 : ℚ) < toRat (qmul (mkQ (n : ℤ) 100) (qpow ⟨10, 1⟩ k)) := by
      rw [hPval]
      positivity
    have h1 := (toRat_num_den _ hPnorm).1
    rw [← h1]
    exact Rat.num_pos.mpr hpos
  have hmz : ((qmul (mkQ (n : ℤ) 100) (qpow ⟨10, 1⟩ k)).num.toNat : ℤ) =
      (qmul (mkQ (n : ℤ) 100) (qpow ⟨10, 1⟩ k)).num := Int.toNat_of_nonneg hPnum_pos.le
  have hmq : ((qmul (mkQ (n : ℤ) 100) (qpow ⟨10, 1⟩ k)).num.toNat : ℚ) =
      (n : ℚ) / 100 * 10 ^ k := by
    calc ((qmul (mkQ (n : ℤ) 100) (qpow ⟨10, 1⟩ k)).num.toNat : ℚ)
        = ((qmul (mkQ (n : ℤ) 100) (qpow ⟨10, 1⟩ k)).num : ℚ) := by exact_mod_cast hmz
      _ = toRat (qmul (mkQ (n : ℤ) 100) (qpow ⟨10, 1⟩ k)) := by
          unfold toRat
          rw [hkden]
          norm_num
      _ = (n : ℚ) / 100 * 10 ^ k := hPval
  cases k with
  | zero =>
    have hvalP0 : toRat (qmul (mkQ (n : ℤ) 100) (qpow ⟨10, 1⟩ 0)) =
        toRat (mkQ (n : ℤ) 100) := by
      rw [show qpow (⟨10, 1⟩ : Q) 0 = Q.one from rfl]
      rw [toRat_qmul _ _ hwnorm.1 (by decide), toRat_one, mul_one]
    have hwden : (mkQ (n : ℤ) 100).den = 1 := by
      have h1 := (toRat_num_den _ hPnorm).2
      have h2 := (toRat_num_den _ hwnorm).2
      rw [hvalP0, h2] at h1
      rw [h1]
      exact hkden
    have hwnum_m : (mkQ (n : ℤ) 100).num =
        ((qmul (mkQ (n : ℤ) 100) (qpow ⟨10, 1⟩ 0)).num.toNat : ℤ) := by
      have h1 := (toRat_num_den _ hPnorm).1
      have h2 := (toRat_num_den _ hwnorm).1
      rw [hvalP0, h2] at h1
      rw [h1, hmz]
    unfold qToCharsPos
    rw [hk]
    set M := (qmul (mkQ (n : ℤ) 100) (qpow ⟨10, 1⟩ 0)).num.toNat with hM
    have htoNat : (mkQ (n : ℤ) 100).num.toNat = M := by
      rw [hwnum_m]
      simp
    rw [htoNat]
    constructor
    · exact ⟨natDigits M, [], natDigits_ne_nil M, natDigits_digits M, Or.inl ⟨rfl, rfl⟩⟩
    · unfold parseFloatQ
      rw [takeWhile_all (natDigits_digits M), dropWhile_all (natDigits_digits M)]
      simp only [natDigits_ne_nil M, if_false]
      rw [natOfDigits_natDigits]
      congr 1
      calc (⟨(M : ℤ), 1⟩ : Q) = ⟨(mkQ (n : ℤ) 100).num, (mkQ (n : ℤ) 100).den⟩ := by
            rw [← hwnum_m, hwden]
        _ = mkQ (n : ℤ) 100 := rfl
  | succ k' =>
    unfold qToCharsPos
    rw [hk]
    set M := (qmul (mkQ (n : ℤ) 100) (qpow ⟨10, 1⟩ (k' + 1))).num.toNat with hMdef
    have hKpos : 0 < k' + 1 := Nat.succ_pos _
    have hpowpos : 0 < 10 ^ (k' + 1) := Nat.pos_pow_of_pos _ (by omega)
    have hfp_lt : M % 10 ^ (k' + 1) < 10 ^ (k' + 1) := Nat.mod_lt _ hpowpos
    have hflen : (natDigits (M % 10 ^ (k' + 1))).length ≤ k' + 1 :=
      natDigits_len _ _ hfp_lt hKpos
    have hFlen : (padZeros (k' + 1) (natDigits (M % 10 ^ (k' + 1)))).length = k' + 1 :=
      padZeros_len hflen
    have hFne : padZeros (k' + 1) (natDigits (M % 10 ^ (k' + 1))) ≠ [] := by
      intro hcon
      rw [hcon] at hFlen
      simp at hFlen
    have hFdig : ∀ c ∈ padZeros (k' + 1) (natDigits (M % 10 ^ (k' + 1))), c.isDigit = true :=
      padZeros_digits (natDigits_digits _)
    have hDne := natDigits_ne_nil (M / 10 ^ (k' + 1))
    have hDdig := natDigits_digits (M / 10 ^ (k' + 1))
    constructor
    · exact ⟨natDigits (M / 10 ^ (k' + 1)), padZeros (k' + 1) (natDigits (M % 10 ^ (k' + 1))),
        hDne, hDdig, Or.inr ⟨hFne, hFdig, rfl⟩⟩
    · unfold parseFloatQ
      rw [takeWhile_all_append hDdig, dropWhile_all_append hDdig]
      rw [List.takeWhile_cons_of_neg (by decide), List.dropWhile_cons_of_neg (by decide)]
      simp only [List.append_nil]
      rw [takeWhile_all hFdig]
      simp only [hDne, hFne, false_and, and_false, if_false]
      rw [natOfDigits_natDigits, natOfDigits_padZeros, natOfDigits_natDigits, hFlen]
      congr 1
      -- value = mkQ n 100 via toRat_inj
      have hvnorm2 : (qinv (qpow ⟨10, 1⟩ (k' + 1))).Normal := by
        unfold qinv
        exact mkQ_normal _ _ (qpow_ten_facts (k' + 1)).2.2
      have hvnorm3 : (qmul ⟨(M % 10 ^ (k' + 1) : ℕ), 1⟩ (qinv (qpow ⟨10, 1⟩ (k' + 1)))).Normal :=
        qmul_normal _ _ (by exact Nat.one_pos) hvnorm2.1
      have hvnorm : (qadd ⟨(M / 10 ^ (k' + 1) : ℕ), 1⟩
          (qdiv ⟨(M % 10 ^ (k' + 1) : ℕ), 1⟩ (qpow ⟨10, 1⟩ (k' + 1)))).Normal := by
        unfold qdiv
        exact qadd_normal _ _ (by exact Nat.one_pos) hvnorm3.1
      apply toRat_inj _ _ hvnorm hwnorm
      unfold qdiv
      rw [toRat_qadd _ _ (by exact Nat.one_pos) hvnorm3.1]
      rw [toRat_qmul _ _ (by exact Nat.one_pos) hvnorm2.1]
      rw [toRat_qinv _ (qpow_ten_facts (k' + 1)).2.2]
      rw [(qpow_ten_facts (k' + 1)).2.1]
      rw [toRat_nat, toRat_nat, hwval]
      -- (M / 10^K : ℚ) + (M % 10^K : ℚ) * ((10:ℚ)^K)⁻¹ = n/100
      have hsplit : (M : ℚ) = ((M / 10 ^ (k' + 1) : ℕ) : ℚ) * 10 ^ (k' + 1) +
          ((M % 10 ^ (k' + 1) : ℕ) : ℚ) := by
        have hdm := Nat.div_add_mod M (10 ^ (k' + 1))
        have : ((10 ^ (k' + 1) * (M / 10 ^ (k' + 1)) + M % 10 ^ (k' + 1) : ℕ) : ℚ) = (M : ℚ) := by
          exact_mod_cast congrArg (fun x : ℕ => (x : ℚ)) hdm
        push_cast at this ⊢
        linarith [this]
      have h10 : ((10 : ℚ) ^ (k' + 1)) ≠ 0 := by positivity
      have hM2 : ((M / 10 ^ (k' + 1) : ℕ) : ℚ) * 10 ^ (k' + 1) +
          ((M % 10 ^ (k' + 1) : ℕ) : ℚ) = (n : ℚ) / 100 * 10 ^ (k' + 1) := by
        rw [← hsplit, hmq]
      field_simp
      field_simp at hM2
      linarith [hM2]

/-- Characters that are safe inside a Format B tag for round-tripping: not a
comma, weight separator, square bracket or backslash. -/
def GoodC (c : Char) : Prop := c ≠ ':' ∧ c ≠ ',' ∧ c ≠ '[' ∧ c ≠ ']' ∧ c ≠ '\\'

instance : DecidablePred GoodC := fun c => by unfold GoodC; infer_instance

theorem escapePixAI_cons_paren {x : Char} (hx : x = '(' ∨ x = ')') (l : List Char) :
    escapePixAI (x :: l) = '\\' :: x :: escapePixAI l := by
  simp [escapePixAI, hx]

theorem escapePixAI_cons_normal {x : Char} (hx : ¬(x = '(' ∨ x = ')')) (l : List Char) :
    escapePixAI (x :: l) = x :: escapePixAI l := by
  simp [escapePixAI, hx]

theorem escapePixAI_ne_nil {l : List Char} (h : l ≠ []) : escapePixAI l ≠ [] := by
  cases l with
  | nil => exact absurd rfl h
  | cons x r =>
    by_cases hx : x = '(' ∨ x = ')'
    · rw [escapePixAI_cons_paren hx]; simp
    · rw [escapePixAI_cons_normal hx]; simp

theorem munchC_escape : ∀ (content : List Char), (∀ c ∈ content, GoodC c) →
    ∀ r2 : List Char,
      munchC (escapePixAI content ++ ':' :: r2) = (escapePixAI content, ':' :: r2) := by
  intro content
  induction content with
  | nil =>
    intro _ r2
    show munchC (':' :: r2) = ([], ':' :: r2)
    rw [munchC.eq_def]
    simp
  | cons x content' ih =>
    intro hgood r2
    have hx := hgood x (List.mem_cons_self ..)
    have hgood' : ∀ c ∈ content', GoodC c := fun c hc => hgood c (List.mem_cons_of_mem _ hc)
    by_cases hp : x = '(' ∨ x = ')'
    · rw [escapePixAI_cons_paren hp]
      have hdot : regexDotFails x = false := by
        rcases hp with h | h <;> subst h <;> decide
      show munchC ('\\' :: x :: (escapePixAI content' ++ ':' :: r2)) = _
      rw [munchC.eq_def]
      simp [hdot, ih hgood' r2]
    · rw [escapePixAI_cons_normal hp]
      push_neg at hp
      show munchC (x :: (escapePixAI content' ++ ':' :: r2)) = _
      rw [munchC.eq_def]
      simp [hx.1, hx.2.2.2.2, hp.1, hp.2, ih hgood' r2]

theorem matchEW_render (content : List Char) (hne : content ≠ [])
    (hgood : ∀ c ∈ content, GoodC c) {nu : List Char} (hnu : NumToken nu) (rest : List Char) :
    matchEW ('(' :: (escapePixAI content ++ ':' :: (nu ++ ')' :: rest))) =
      some (escapePixAI content, nu, rest) := by
  obtain ⟨D, F, hD, hDdig, hF⟩ := hnu
  rcases hF with ⟨hFnil, hnuD⟩ | ⟨hFne, hFdig, hnuD⟩
  · subst hnuD
    have hm := munchC_escape content hgood (nu ++ ')' :: rest)
    have ht1 : List.takeWhile Char.isDigit (nu ++ ')' :: rest) = nu := by
      rw [takeWhile_all_append hDdig, List.takeWhile_cons_of_neg (by decide)]
      simp
    have hd1 : List.dropWhile Char.isDigit (nu ++ ')' :: rest) = ')' :: rest := by
      rw [dropWhile_all_append hDdig, List.dropWhile_cons_of_neg (by decide)]
    simp [matchEW, hm, escapePixAI_ne_nil hne, ht1, hd1, hD]
  · subst hnuD
    have hm := munchC_escape content hgood (D ++ '.' :: (F ++ ')' :: rest))
    have ht1 : List.takeWhile Char.isDigit (D ++ '.' :: (F ++ ')' :: rest)) = D := by
      rw [takeWhile_all_append hDdig, List.takeWhile_cons_of_neg (by decide)]
      simp
    have hd1 : List.dropWhile Char.isDigit (D ++ '.' :: (F ++ ')' :: rest)) =
        '.' :: (F ++ ')' :: rest) := by
      rw [dropWhile_all_append hDdig, List.dropWhile_cons_of_neg (by decide)]
    have ht2 : List.takeWhile Char.isDigit (F ++ ')' :: rest) = F := by
      rw [takeWhile_all_append hFdig, List.takeWhile_cons_of_neg (by decide)]
      simp
    have hd2 : List.dropWhile Char.isDigit (F ++ ')' :: rest) = ')' :: rest := by
      rw [dropWhile_all_append hFdig, List.dropWhile_cons_of_neg (by decide)]
    simp [matchEW, hm, escapePixAI_ne_nil hne, ht1, hd1, ht2, hd2, hD, hFne]

theorem munchC_append : ∀ l : List Char, (munchC l).1 ++ (munchC l).2 = l := by
  intro l
  induction l using munchC.induct <;>
    · rw [munchC.eq_def]
      simp_all

theorem matchEW_shape : ∀ {cs co nu after : List Char},
    matchEW cs = some (co, nu, after) → cs = '(' :: (co ++ ':' :: (nu ++ ')' :: after)) := by
  intro cs co nu after h
  rw [matchEW.eq_def] at h
  repeat' split at h
  all_goals (try exact Option.noConfusion h)
  · rename_i cs0 cs1 p content hco r1 r2 heq1 hD x1 after1 heq2
    simp only [Option.some.injEq, Prod.mk.injEq] at h
    obtain ⟨hco2, hnu2, haf2⟩ := h
    subst_vars
    have e1 : content ++ ':' :: r2 = cs1 := by simpa [heq1] using munchC_append cs1
    have e2 : List.takeWhile Char.isDigit r2 ++ List.dropWhile Char.isDigit r2 = r2 := by
      simp [List.takeWhile_append_dropWhile]
    have e3 : r2 = List.takeWhile Char.isDigit r2 ++ ')' :: after1 := by
      conv_lhs => rw [← e2]
      rw [heq2]
    conv_rhs => rw [← e3]
    rw [e1]
  · rename_i cs0 cs1 p content hco r1 r2 heq1 hD2 x1 r3 heqd2 hD3 x2 after1 heqd3
    simp only [Option.some.injEq, Prod.mk.injEq] at h
    obtain ⟨hco2, hnu2, haf2⟩ := h
    subst_vars
    have e1 : content ++ ':' :: r2 = cs1 := by simpa [heq1] using munchC_append cs1
    have e2 : List.takeWhile Char.isDigit r2 ++ List.dropWhile Char.isDigit r2 = r2 := by
      simp [List.takeWhile_append_dropWhile]
    have e2' : List.takeWhile Char.isDigit r3 ++ List.dropWhile Char.isDigit r3 = r3 := by
      simp [List.takeWhile_append_dropWhile]
    have e4 : r3 = List.takeWhile Char.isDigit r3 ++ ')' :: after1 := by
      conv_lhs => rw [← e2']
      rw [heqd3]
    have e3 : r2 = List.takeWhile Char.isDigit r2 ++ '.' :: r3 := by
      conv_lhs => rw [← e2]
      rw [heqd2]
    conv_rhs => rw [List.append_assoc, List.cons_append, ← e4, ← e3]
    rw [e1]

theorem scanB_fuel : ∀ (f1 : ℕ) (cs : List Char) (f2 : ℕ) (st : StateB),
    cs.length < f1 → cs.length < f2 → scanB f1 cs st = scanB f2 cs st := by
  intro f1
  induction f1 with
  | zero => intro cs f2 st h1 _; exact absurd h1 (Nat.not_lt_zero _)
  | succ g1 ih =>
    intro cs f2 st h1 h2
    cases f2 with
    | zero => exact absurd h2 (Nat.not_lt_zero _)
    | succ g2 =>
      cases cs with
      | nil => rfl
      | cons c rest =>
        simp only [List.length_cons] at h1 h2
        by_cases hbs : c = '\\'
        · subst hbs
          cases rest with
          | nil =>
            have e := ih [] g2 { st with buffer := st.buffer ++ ['\\'] }
              (by omega) (by omega)
            simp [scanB, e]
          | cons c2 rest2 =>
            simp only [List.length_cons] at h1 h2
            have e := ih rest2 g2 { st with buffer := st.buffer ++ ['\\', c2] }
              (by omega) (by omega)
            simp [scanB, e]
        · by_cases hop : c = '('
          · subst hop
            cases hm : matchEW ('(' :: rest) with
            | none =>
              have e := ih rest g2 ⟨st.paren + 1, st.square, []⟩ (by omega) (by omega)
              simp [scanB, hm, e]
            | some trip =>
              obtain ⟨co, nu, af⟩ := trip
              have hsh := matchEW_shape hm
              have hrest : rest = co ++ ':' :: (nu ++ ')' :: af) := by
                simpa using hsh
              have haf : af.length < rest.length := by
                rw [hrest]; simp; omega
              have e := ih af g2 ⟨st.paren, st.square, []⟩ (by omega) (by omega)
              simp [scanB, hm, e]
          · by_cases hcp : c = ')'
            · subst hcp
              have e := ih rest g2 ⟨st.paren - 1, st.square, []⟩ (by omega) (by omega)
              simp [scanB, e]
            · by_cases hsb : c = '['
              · subst hsb
                have e := ih rest g2 ⟨st.paren, st.square + 1, []⟩ (by omega) (by omega)
                simp [scanB, e]
              · by_cases hsc : c = ']'
                · subst hsc
                  have e := ih rest g2 ⟨st.paren, st.square - 1, []⟩ (by omega) (by omega)
                  simp [scanB, e]
                · by_cases hcm : c = ','
                  · subst hcm
                    have e := ih rest g2 ⟨st.paren, st.square, []⟩ (by omega) (by omega)
                    simp [scanB, e]
                  · have e := ih rest g2 { st with buffer := st.buffer ++ [c] }
                      (by omega) (by omega)
                    simp [scanB, hbs, hop, hcp, hsb, hsc, hcm, e]

/-- `scanB` at its canonical fuel (one more than the text length). -/
def runB (cs : List Char) (st : StateB) : List Segment := scanB (cs.length + 1) cs st

theorem runB_nil (st : StateB) : runB [] st = flushB st := rfl

theorem runB_comma (cs : List Char) (st : StateB) :
    runB (',' :: cs) st = flushB st ++ runB cs ⟨st.paren, st.square, []⟩ := by
  simp [runB, scanB]

theorem runB_normal {c : Char} (h1 : ¬c = '\\') (h2 : ¬c = '(') (h3 : ¬c = ')')
    (h4 : ¬c = '[') (h5 : ¬c = ']') (h6 : ¬c = ',') (cs : List Char) (st : StateB) :
    runB (c :: cs) st = runB cs { st with buffer := st.buffer ++ [c] } := by
  simp [runB, scanB, h1, h2, h3, h4, h5, h6]

theorem runB_escpair (c2 : Char) (cs : List Char) (st : StateB) :
    runB ('\\' :: c2 :: cs) st = runB cs { st with buffer := st.buffer ++ ['\\', c2] } := by
  have e := scanB_fuel (cs.length + 2) cs (cs.length + 1)
    { st with buffer := st.buffer ++ ['\\', c2] } (by omega) (by omega)
  simp [runB, scanB, e]

theorem runB_ew {cs co nu af : List Char} {w : Q} (hm : matchEW ('(' :: cs) = some (co, nu, af))
    (hpf : parseFloatQ nu = some w) (st : StateB) :
    runB ('(' :: cs) st =
      flushB st ++
        ⟨SegKind.weight, '(' :: co ++ ':' :: nu ++ [')'], unescapePixAI (trimChars co),
          some w⟩ ::
        runB af ⟨st.paren, st.square, []⟩ := by
  have hsh := matchEW_shape hm
  have hrest : cs = co ++ ':' :: (nu ++ ')' :: af) := by simpa using hsh
  have haf : af.length < cs.length + 1 := by rw [hrest]; simp; omega
  have e := scanB_fuel (cs.length + 1) af (af.length + 1) ⟨st.paren, st.square, []⟩
    haf (by omega)
  simp [runB, scanB, hm, hpf, e]

theorem runB_escape : ∀ (content : List Char), (∀ c ∈ content, GoodC c) →
    ∀ (rest : List Char) (st : StateB),
      runB (escapePixAI content ++ rest) st
        = runB rest { st with buffer := st.buffer ++ escapePixAI content } := by
  intro content
  induction content with
  | nil =>
    intro _ rest st
    show runB rest st = runB rest { st with buffer := st.buffer ++ [] }
    simp
  | cons x content' ih =>
    intro hgood rest st
    have hx := hgood x (List.mem_cons_self ..)
    have hgood' : ∀ c ∈ content', GoodC c := fun c hc => hgood c (List.mem_cons_of_mem _ hc)
    by_cases hp : x = '(' ∨ x = ')'
    · rw [escapePixAI_cons_paren hp, List.cons_append, List.cons_append, runB_escpair,
        ih hgood' rest]
      simp [escapePixAI_cons_paren hp]
    · have hp' := hp
      push_neg at hp'
      rw [escapePixAI_cons_normal hp, List.cons_append,
        runB_normal hx.2.2.2.2 hp'.1 hp'.2 hx.2.2.1 hx.2.2.2.1 hx.2.1,
        ih hgood' rest]
      simp [escapePixAI_cons_normal hp]

theorem mem_escapePixAI {x : Char} : ∀ {l : List Char}, x ∈ l → x ∈ escapePixAI l := by
  intro l
  induction l with
  | nil => intro h; exact absurd h (List.not_mem_nil x)
  | cons c r ih =>
    intro h
    by_cases hc : c = '(' ∨ c = ')'
    · rw [escapePixAI_cons_paren hc]
      rcases List.mem_cons.mp h with h | h
      · subst h; simp
      · simp [ih h]
    · rw [escapePixAI_cons_normal hc]
      rcases List.mem_cons.mp h with h | h
      · subst h; simp
      · simp [ih h]

theorem exists_nonws_of_trim_ne_nil {l : List Char} (h : trimChars l ≠ []) :
    ∃ x ∈ l, wsChar x = false := by
  by_contra hc
  push_neg at hc
  apply h
  have hall : ∀ c ∈ l, wsChar c = true := by
    intro c hcl
    have := hc c hcl
    revert this
    cases wsChar c <;> simp
  show trimRightChars (l.dropWhile wsChar) = []
  rw [dropWhile_all hall]
  rfl

theorem flushB_empty {st : StateB} (h : trimChars st.buffer = []) : flushB st = [] := by
  simp [flushB, h]

theorem flushB_one_weights {st : StateB} (hp : st.paren = 0) (hs : st.square = 0)
    (hne : trimChars st.buffer ≠ []) :
    (flushB st).map (fun s => s.weight) = [some Q.one] := by
  obtain ⟨p, s, b⟩ := st
  simp only at hp hs
  subst hp
  subst hs
  have hw : roundWeight (qmul (qmul Q.one (qpow ⟨11, 10⟩ 0)) (qpow ⟨9, 10⟩ 0)) = Q.one := by
    decide
  simp only [flushB] at hne ⊢
  simp [hne, hw]

/-- A segment in the claim's scope: trimmed-nonempty content whose characters
survive a Format B round trip, and a positive 2-decimal override weight
`n / 100` with `n < 10^16`.  The bound keeps the weight in the range where
JS `Number.toString` prints the plain 2-decimal expansion that `qToChars`
models: at `1e21` and above `toString` switches to exponential notation
(`"1e+21"`), which `explicitWeightRegex`'s `(\d+(?:\.\d+)?)` rejects, so the
round trip genuinely fails there; and below `10^16 / 100` the value has at
most 16 significant decimal digits, so the shortest-round-trip printing of
the IEEE double equals the exact expansion (trailing zeros trimmed). -/
def GoodSeg (s : Segment) : Prop :=
  trimChars s.content ≠ [] ∧ (∀ c ∈ s.content, GoodC c) ∧
    ∃ n : ℕ, 0 < n ∧ n < 10 ^ 16 ∧ s.weight = some (mkQ (n : ℤ) 100)

theorem runB_render_weights : ∀ (segs : List Segment), (∀ s ∈ segs, GoodSeg s) →
    ∀ (pre : List Char), trimChars pre = [] →
    (runB (joinSep (segs.map renderB)) ⟨0, 0, pre⟩).map (fun s => s.weight)
      = segs.map (fun s => s.weight) := by
  intro segs
  induction segs with
  | nil =>
    intro _ pre hpre
    have hf : flushB ⟨0, 0, pre⟩ = [] := @flushB_empty ⟨0, 0, pre⟩ hpre
    simp [joinSep, runB_nil, hf]
  | cons s segs' ih =>
    intro hgood pre hpre
    obtain ⟨htne, hgc, n, hn, -, hw⟩ := hgood s (List.mem_cons_self ..)
    have hcne : s.content ≠ [] := by
      intro hc; exact htne (by rw [hc]; rfl)
    have hgood' : ∀ t ∈ segs', GoodSeg t := fun t ht => hgood t (List.mem_cons_of_mem _ ht)
    have hwor : wOr1 s.weight = mkQ (n : ℤ) 100 := by
      rw [hw]; simp [wOr1, mkQ100_ne_zero hn]
    obtain ⟨x, hxm, hxw⟩ := exists_nonws_of_trim_ne_nil htne
    by_cases hone : mkQ (n : ℤ) 100 = Q.one
    · have hrend : renderB s = escapePixAI s.content := by
        simp [renderB, hwor, hone]
      have htne' : ∀ p : List Char, trimChars (p ++ escapePixAI s.content) ≠ [] :=
        fun p => trim_ne_nil_of_mem (List.mem_append_right p (mem_escapePixAI hxm)) hxw
      cases segs' with
      | nil =>
        simp only [List.map_cons, List.map_nil]
        rw [show joinSep [renderB s] = renderB s from rfl, hrend,
          ← List.append_nil (escapePixAI s.content), runB_escape s.content hgc [] _,
          runB_nil, flushB_one_weights rfl rfl (htne' pre), hw, hone]
      | cons t ts =>
        simp only [List.map_cons]
        rw [joinSep_cons, if_neg (List.cons_ne_nil _ _), hrend,
          runB_escape s.content hgc _ _, runB_comma,
          runB_normal (by decide) (by decide) (by decide) (by decide) (by decide) (by decide),
          List.map_append, flushB_one_weights rfl rfl (htne' pre)]
        have hihe := ih hgood' [' '] (by decide)
        simp only [List.map_cons] at hihe
        simp [hihe, hw, hone]
    · have hNT := (qToChars_mkQ100 n hn).1
      have hpf := (qToChars_mkQ100 n hn).2
      have hrend : renderB s =
          '(' :: escapePixAI s.content ++ ':' :: qToChars (mkQ (n : ℤ) 100) ++ [')'] := by
        simp [renderB, hwor, hone]
      cases segs' with
      | nil =>
        simp only [List.map_cons, List.map_nil]
        rw [show joinSep [renderB s] = renderB s from rfl, hrend]
        simp only [List.cons_append, List.append_assoc, List.nil_append]
        rw [runB_ew (matchEW_render s.content hcne hgc hNT []) hpf,
          @flushB_empty ⟨0, 0, pre⟩ hpre, runB_nil]
        simp [@flushB_empty ⟨0, 0, []⟩ rfl, hw]
      | cons t ts =>
        simp only [List.map_cons]
        rw [joinSep_cons, if_neg (List.cons_ne_nil _ _), hrend]
        simp only [List.cons_append, List.append_assoc, List.nil_append]
        rw [runB_ew (matchEW_render s.content hcne hgc hNT
            (',' :: ' ' :: joinSep (renderB t :: List.map renderB ts))) hpf,
          @flushB_empty ⟨0, 0, pre⟩ hpre, runB_comma,
          runB_normal (by decide) (by decide) (by decide) (by decide) (by decide) (by decide)]
        have hihe := ih hgood' [' '] (by decide)
        simp only [List.map_cons] at hihe
        simp [hihe, @flushB_empty ⟨0, 0, []⟩ rfl, hw]

/-- C7 (amended).  Format B round-trip weight fidelity holds on the segment
lists the serializer/scanner pair can faithfully carry: every segment whose
content is non-empty after trimming and free of `:`, `,`, `[`, `]` and `\`
(parentheses are fine — they are escaped), and whose weight is a positive
2-decimal value n/100 with n < 10^16, has its weight reproduced EXACTLY
(hence within the claimed 0.01) by `scan_b (serialize_b segments)`.
Outside this scope the claim fails: a `:` inside a tag makes the serialized
override token unparseable and the weight is lost entirely (see the
counterexample), and a weight of `1e21` or more is printed by JS in
exponential notation (`"1e+21"`), which the override regex likewise rejects —
hence the weight bound, under which `toString` provably prints the plain
decimal form `qToChars` models. -/
theorem C7_roundtrip (segs : List Segment) (h : ∀ s ∈ segs, GoodSeg s) :
    (parsePixAI (segmentsToPixAI segs)).map (fun s => s.weight)
      = segs.map (fun s => s.weight) := by
  have hkeep : segs.filter keepB = segs := by
    rw [List.filter_eq_self]
    intro s hs
    obtain ⟨htne, -, -⟩ := h s hs
    have hcne : s.content ≠ [] := by
      intro hc; exact htne (by rw [hc]; rfl)
    simp [keepB, hcne, htne]
  have hpp : parsePixAI (segmentsToPixAI segs)
      = runB (joinSep ((segs.filter keepB).map renderB)) ⟨0, 0, []⟩ := rfl
  rw [hpp, hkeep]
  exact runB_render_weights segs h [] rfl

theorem C7_roundtrip_witness :
    (parsePixAI (segmentsToPixAI
        [⟨SegKind.weight, [], ['t', 'a', 'g'], some (mkQ 150 100)⟩])).map (fun s => s.weight)
      = [(⟨SegKind.weight, [], ['t', 'a', 'g'], some (mkQ 150 100)⟩ : Segment)].map
          (fun s => s.weight) := by
  have pf : ∀ s ∈ [(⟨SegKind.weight, [], ['t', 'a', 'g'], some (mkQ 150 100)⟩ : Segment)],
      GoodSeg s := by
    intro s hs
    rw [List.mem_singleton] at hs
    subst hs
    exact ⟨by decide, by decide, 150, by decide, by decide, by decide⟩
  exact C7_roundtrip _ pf
